import Mathlib

/-!
Verification of the SRT translator session core (`src/main.py`) against its
natural-language specification.

The embedding below models, at the level the claims require:
* the subtitle codec (parse of raw SRT text into cue items, serialization
  back to text) — the source delegates this to the external `pysrt`
  library, so the codec is modelled from the specification (§4.2, §6);
* the quota guard (`classify`, `totalChars`) — modelled from the
  specification (§4.3), since no quota code exists in the source;
* the session operations `translate_srt_clicked`,
  `on_file_selected_callback` and the save flow, translated directly from
  `src/main.py`;
* `load_config`, translated directly from `src/main.py`.
-/

namespace SrtTranslator

/-! ## Generic separator-based splitting and joining

`splitSep` splits a list at every occurrence of a separator element and
`joinSep` interleaves a separator between parts.  Instantiated with
`'\n'` on characters these model line splitting; instantiated with the
empty line on lists of lines they model blank-line block separation. -/

abbrev Line := List Char

def splitSep {α : Type} [DecidableEq α] (sep : α) : List α → List (List α)
  | [] => [[]]
  | c :: rest =>
    if c = sep then [] :: splitSep sep rest
    else
      match splitSep sep rest with
      | l :: ls => (c :: l) :: ls
      | [] => [[c]]

def joinSep {α : Type} (sep : α) : List (List α) → List α
  | [] => []
  | [p] => p
  | p :: q :: ps => p ++ sep :: joinSep sep (q :: ps)

theorem splitSep_ne_nil {α : Type} [DecidableEq α] (sep : α) (l : List α) :
    splitSep sep l ≠ [] := by
  induction l with
  | nil => simp [splitSep]
  | cons c rest ih =>
    simp only [splitSep]
    split
    · simp
    · match h : splitSep sep rest with
      | l :: ls => simp
      | [] => simp

theorem splitSep_no_sep {α : Type} [DecidableEq α] {sep : α} {p : List α}
    (h : sep ∉ p) : splitSep sep p = [p] := by
  induction p with
  | nil => rfl
  | cons c rest ih =>
    have hc : c ≠ sep := fun he => h (he ▸ List.mem_cons_self c rest)
    have hr : sep ∉ rest := fun hm => h (List.mem_cons_of_mem c hm)
    simp only [splitSep, if_neg hc, ih hr]

theorem splitSep_append {α : Type} [DecidableEq α] {sep : α} {p : List α}
    (rest : List α) (h : sep ∉ p) :
    splitSep sep (p ++ sep :: rest) = p :: splitSep sep rest := by
  induction p with
  | nil => simp [splitSep]
  | cons c p' ih =>
    have hc : c ≠ sep := fun he => h (he ▸ List.mem_cons_self c p')
    have hr : sep ∉ p' := fun hm => h (List.mem_cons_of_mem c hm)
    simp only [List.cons_append, splitSep, if_neg hc, List.append_eq]
    rw [ih hr]

theorem splitSep_joinSep {α : Type} [DecidableEq α] {sep : α} :
    ∀ (parts : List (List α)), parts ≠ [] → (∀ p ∈ parts, sep ∉ p) →
      splitSep sep (joinSep sep parts) = parts
  | [], h, _ => absurd rfl h
  | [p], _, hs => by
    simpa [joinSep] using splitSep_no_sep (hs p (by simp))
  | p :: q :: ps, _, hs => by
    have hp : sep ∉ p := hs p (by simp)
    have ih := splitSep_joinSep (q :: ps) (by simp)
      (fun r hr => hs r (List.mem_cons_of_mem p hr))
    simp only [joinSep, splitSep_append _ hp, ih]

theorem joinSep_splitSep {α : Type} [DecidableEq α] (sep : α) :
    ∀ (l : List α), joinSep sep (splitSep sep l) = l := by
  intro l
  induction l with
  | nil => rfl
  | cons c rest ih =>
    simp only [splitSep]
    split
    · rename_i hc
      subst hc
      match h : splitSep c rest with
      | [] => exact absurd h (splitSep_ne_nil c rest)
      | l :: ls =>
        rw [h] at ih
        simp only [joinSep, ih, List.nil_append]
    · rename_i hc
      match h : splitSep sep rest with
      | [] => exact absurd h (splitSep_ne_nil sep rest)
      | l :: ls =>
        rw [h] at ih
        cases ls with
        | nil => simp only [joinSep] at ih ⊢; rw [ih]
        | cons l' ls' => simp only [joinSep, List.cons_append] at ih ⊢; rw [ih]

theorem not_mem_of_mem_splitSep {α : Type} [DecidableEq α] {sep : α} :
    ∀ {l : List α} {p : List α}, p ∈ splitSep sep l → sep ∉ p := by
  intro l
  induction l with
  | nil =>
    intro p hp
    simp [splitSep] at hp
    simp [hp]
  | cons c rest ih =>
    intro p hp
    simp only [splitSep] at hp
    split at hp
    · rcases List.mem_cons.mp hp with h | h
      · simp [h]
      · exact ih h
    · rename_i hc
      match h : splitSep sep rest with
      | [] => exact absurd h (splitSep_ne_nil sep rest)
      | l :: ls =>
        rw [h] at hp
        rcases List.mem_cons.mp hp with h2 | h2
        · subst h2
          intro hm
          rcases List.mem_cons.mp hm with h3 | h3
          · exact hc h3.symm
          · exact ih (h ▸ List.mem_cons_self l ls) h3
        · exact ih (h ▸ List.mem_cons_of_mem l h2)

theorem mem_of_mem_splitSep {α : Type} [DecidableEq α] {sep : α} :
    ∀ {l p : List α} {x : α}, p ∈ splitSep sep l → x ∈ p → x ∈ l := by
  intro l
  induction l with
  | nil =>
    intro p x hp hx
    simp [splitSep] at hp
    subst hp
    exact absurd hx (List.not_mem_nil x)
  | cons c rest ih =>
    intro p x hp hx
    simp only [splitSep] at hp
    split at hp
    · rcases List.mem_cons.mp hp with h | h
      · subst h; exact absurd hx (List.not_mem_nil x)
      · exact List.mem_cons_of_mem c (ih h hx)
    · match h : splitSep sep rest with
      | [] => exact absurd h (splitSep_ne_nil sep rest)
      | l :: ls =>
        rw [h] at hp
        rcases List.mem_cons.mp hp with h2 | h2
        · subst h2
          rcases List.mem_cons.mp hx with h3 | h3
          · exact h3 ▸ List.mem_cons_self c rest
          · exact List.mem_cons_of_mem c (ih (h ▸ List.mem_cons_self l ls) h3)
        · exact List.mem_cons_of_mem c (ih (h ▸ List.mem_cons_of_mem l h2) hx)

theorem mem_joinSep {α : Type} {sep : α} :
    ∀ {parts : List (List α)} {x : α}, x ∈ joinSep sep parts →
      x = sep ∨ ∃ p ∈ parts, x ∈ p
  | [], x, hx => by simp [joinSep] at hx
  | [p], x, hx => by
    right
    exact ⟨p, by simp, by simpa [joinSep] using hx⟩
  | p :: q :: ps, x, hx => by
    simp only [joinSep, List.mem_append, List.mem_cons] at hx
    rcases hx with h | h | h
    · exact Or.inr ⟨p, by simp, h⟩
    · exact Or.inl h
    · rcases mem_joinSep h with h2 | ⟨r, hr, hxr⟩
      · exact Or.inl h2
      · exact Or.inr ⟨r, List.mem_cons_of_mem p hr, hxr⟩

theorem joinSep_ne_nil {α : Type} (sep : α) :
    ∀ (parts : List (List α)), parts ≠ [] → (∀ p ∈ parts, p ≠ []) →
      joinSep sep parts ≠ []
  | [], h, _ => absurd rfl h
  | [p], _, hs => by simpa [joinSep] using hs p (by simp)
  | p :: q :: ps, _, hs => by
    have hp : p ≠ [] := hs p (by simp)
    simp only [joinSep]
    intro hcontra
    rcases List.append_eq_nil.mp hcontra with ⟨h1, _⟩
    exact hp h1

/-! ## Decimal numerals

Formatting of a natural number as decimal digit characters, zero padding,
and parsing of a digit string back to a number. -/

def digitVal (c : Char) : Nat := c.toNat - 48

def natChars (n : Nat) : List Char :=
  if h : n < 10 then [Char.ofNat (48 + n)]
  else natChars (n / 10) ++ [Char.ofNat (48 + n % 10)]
  decreasing_by exact Nat.div_lt_self (by omega) (by decide)

def padZeros (w : Nat) (cs : List Char) : List Char :=
  List.replicate (w - cs.length) '0' ++ cs

def parseNat? (cs : List Char) : Option Nat :=
  if cs.isEmpty then none
  else if cs.all (fun c => c.isDigit) then
    some (cs.foldl (fun acc c => 10 * acc + digitVal c) 0)
  else none

theorem digit_char_isDigit {d : Nat} (h : d < 10) :
    (Char.ofNat (48 + d)).isDigit = true := by
  interval_cases d <;> decide

theorem digitVal_digit_char {d : Nat} (h : d < 10) :
    digitVal (Char.ofNat (48 + d)) = d := by
  interval_cases d <;> decide

theorem natChars_ne_nil (n : Nat) : natChars n ≠ [] := by
  rw [natChars]
  split
  · simp
  · simp

theorem natChars_all_digit (n : Nat) : ∀ c ∈ natChars n, c.isDigit = true := by
  induction n using Nat.strong_induction_on with
  | _ n ih =>
    rw [natChars]
    split
    · rename_i h
      intro c hc
      simp only [List.mem_singleton] at hc
      subst hc
      exact digit_char_isDigit h
    · rename_i h
      intro c hc
      rcases List.mem_append.mp hc with h2 | h2
      · exact ih (n / 10) (Nat.div_lt_self (by omega) (by decide)) c h2
      · simp only [List.mem_singleton] at h2
        subst h2
        exact digit_char_isDigit (Nat.mod_lt n (by decide))

theorem foldl_digits_append (cs ds : List Char) (b : Nat) :
    (cs ++ ds).foldl (fun acc c => 10 * acc + digitVal c) b =
      ds.foldl (fun acc c => 10 * acc + digitVal c)
        (cs.foldl (fun acc c => 10 * acc + digitVal c) b) :=
  List.foldl_append ..

theorem foldl_natChars (n b : Nat) :
    (natChars n).foldl (fun acc c => 10 * acc + digitVal c) b =
      b * 10 ^ (natChars n).length + n := by
  induction n using Nat.strong_induction_on with
  | _ n ih =>
    rw [natChars]
    split
    · rename_i h
      simp [List.foldl, digitVal_digit_char h]
      ring
    · rename_i h
      rw [foldl_digits_append]
      have ihd := ih (n / 10) (Nat.div_lt_self (by omega) (by decide))
      simp only [List.foldl, ihd, digitVal_digit_char (Nat.mod_lt n (by decide)),
        List.length_append, List.length_singleton]
      have hmod := Nat.div_add_mod n 10
      ring_nf
      omega

theorem parseNat_natChars (n : Nat) : parseNat? (natChars n) = some n := by
  have hne : (natChars n).isEmpty = false := by
    cases h : natChars n with
    | nil => exact absurd h (natChars_ne_nil n)
    | cons c cs => rfl
  have hall : (natChars n).all (fun c => c.isDigit) = true := by
    rw [List.all_eq_true]
    exact natChars_all_digit n
  simp only [parseNat?, hne, Bool.false_eq_true, if_false, hall, if_true]
  rw [foldl_natChars]
  simp

theorem foldl_replicate_zero (k : Nat) :
    (List.replicate k '0').foldl (fun acc c => 10 * acc + digitVal c) 0 = 0 := by
  induction k with
  | zero => rfl
  | succ k ihk =>
    rw [List.replicate_succ]
    simpa [List.foldl, digitVal] using ihk

theorem parseNat_replicate_zero (k : Nat) (cs : List Char) (hne : cs ≠ [])
    (hd : ∀ c ∈ cs, c.isDigit = true) :
    parseNat? (List.replicate k '0' ++ cs) = parseNat? cs := by
  have hcs : cs.isEmpty = false := by
    cases cs with
    | nil => exact absurd rfl hne
    | cons c t => rfl
  have happne : (List.replicate k '0' ++ cs).isEmpty = false := by
    cases h : List.replicate k '0' ++ cs with
    | nil => rcases List.append_eq_nil.mp h with ⟨_, h2⟩; exact absurd h2 hne
    | cons c t => rfl
  have hall : cs.all (fun c => c.isDigit) = true := List.all_eq_true.mpr hd
  have happall : (List.replicate k '0' ++ cs).all (fun c => c.isDigit) = true := by
    rw [List.all_eq_true]
    intro c hc
    rcases List.mem_append.mp hc with h | h
    · have := List.eq_of_mem_replicate h
      subst this
      decide
    · exact hd c h
  simp only [parseNat?, hcs, happne, Bool.false_eq_true, if_false, hall,
    happall, if_true]
  rw [foldl_digits_append, foldl_replicate_zero]

theorem parseNat_padZeros (w : Nat) (n : Nat) :
    parseNat? (padZeros w (natChars n)) = some n := by
  rw [padZeros, parseNat_replicate_zero _ _ (natChars_ne_nil n) (natChars_all_digit n)]
  exact parseNat_natChars n

theorem padZeros_all_digit (w : Nat) (n : Nat) :
    ∀ c ∈ padZeros w (natChars n), c.isDigit = true := by
  intro c hc
  rcases List.mem_append.mp hc with h | h
  · have := List.eq_of_mem_replicate h
    subst this
    decide
  · exact natChars_all_digit n c h

theorem padZeros_ne_nil (w : Nat) (n : Nat) : padZeros w (natChars n) ≠ [] := by
  intro h
  rcases List.append_eq_nil.mp h with ⟨_, h2⟩
  exact natChars_ne_nil n h2

theorem isDigit_ne (c : Char) (h : c.isDigit = true) :
    c ≠ ':' ∧ c ≠ ',' ∧ c ≠ ' ' ∧ c ≠ '\n' ∧ c ≠ '\r' ∧ c ≠ '-' ∧ c ≠ '>' := by
  refine ⟨?_, ?_, ?_, ?_, ?_, ?_, ?_⟩ <;>
    · intro hc
      subst hc
      exact absurd h (by decide)

/-! ## Timestamps and cues

`SubRipTime` and `SubRipItem` mirror the cue model the source manipulates
through `pysrt` (`sub.start`, `sub.end`, `sub.text`, `sub.index`).
Components are kept as unbounded naturals; range invariants are a separate
validation concern in the specification and are not needed by the claims. -/

structure SubRipTime where
  hours : Nat
  minutes : Nat
  seconds : Nat
  milliseconds : Nat
deriving DecidableEq, Repr

structure SubRipItem where
  index : Nat
  start : SubRipTime
  «end» : SubRipTime
  text : String
deriving DecidableEq, Repr

inductive ParseError where
  | badIndex
  | missingTimestamp
  | badTimestamp
deriving DecidableEq, Repr

/-- Modelled from the spec: timestamp rendering `HH:MM:SS,mmm` with
zero-padded fields and a comma millisecond separator (§4.2); the concrete
formatter lives in the external `pysrt` library, absent from `src/`. -/
def fmtTime (t : SubRipTime) : Line :=
  padZeros 2 (natChars t.hours) ++ ':' ::
    (padZeros 2 (natChars t.minutes) ++ ':' ::
      (padZeros 2 (natChars t.seconds) ++ ',' :: padZeros 3 (natChars t.milliseconds)))

/-- Modelled from the spec: parsing one `HH:MM:SS,mmm` timestamp; the
concrete parser lives in the external `pysrt` library, absent from `src/`. -/
def parseTime? (cs : Line) : Option SubRipTime :=
  match splitSep ':' cs with
  | [h, m, sms] =>
    match splitSep ',' sms with
    | [s, ms] =>
      match parseNat? h, parseNat? m, parseNat? s, parseNat? ms with
      | some hh, some mm, some ss, some mss => some ⟨hh, mm, ss, mss⟩
      | _, _, _, _ => none
    | _ => none
  | _ => none

theorem fmtTime_chars (t : SubRipTime) :
    ∀ c ∈ fmtTime t, c.isDigit = true ∨ c = ':' ∨ c = ',' := by
  intro c hc
  simp only [fmtTime, List.mem_append, List.mem_cons] at hc
  rcases hc with h | h | h | h | h | h | h
  · exact Or.inl (padZeros_all_digit 2 t.hours c h)
  · exact Or.inr (Or.inl h)
  · exact Or.inl (padZeros_all_digit 2 t.minutes c h)
  · exact Or.inr (Or.inl h)
  · exact Or.inl (padZeros_all_digit 2 t.seconds c h)
  · exact Or.inr (Or.inr h)
  · exact Or.inl (padZeros_all_digit 3 t.milliseconds c h)

theorem fmtTime_no_colon_free_chars (t : SubRipTime) :
    ∀ c ∈ fmtTime t, c ≠ ' ' ∧ c ≠ '\n' ∧ c ≠ '\r' := by
  intro c hc
  rcases fmtTime_chars t c hc with h | h | h
  · exact ⟨(isDigit_ne c h).2.2.1, (isDigit_ne c h).2.2.2.1, (isDigit_ne c h).2.2.2.2.1⟩
  · subst h; refine ⟨by decide, by decide, by decide⟩
  · subst h; refine ⟨by decide, by decide, by decide⟩

theorem fmtTime_ne_nil (t : SubRipTime) : fmtTime t ≠ [] := by
  simp only [fmtTime]
  intro h
  rcases List.append_eq_nil.mp h with ⟨h1, _⟩
  exact padZeros_ne_nil 2 t.hours h1

theorem parseTime_fmtTime (t : SubRipTime) : parseTime? (fmtTime t) = some t := by
  have hjoin : fmtTime t = joinSep ':'
      [padZeros 2 (natChars t.hours), padZeros 2 (natChars t.minutes),
        padZeros 2 (natChars t.seconds) ++ ',' :: padZeros 3 (natChars t.milliseconds)] := by
    simp [fmtTime, joinSep]
  have hsplit : splitSep ':' (fmtTime t) =
      [padZeros 2 (natChars t.hours), padZeros 2 (natChars t.minutes),
        padZeros 2 (natChars t.seconds) ++ ',' :: padZeros 3 (natChars t.milliseconds)] := by
    rw [hjoin]
    apply splitSep_joinSep _ (by simp)
    intro p hp
    simp only [List.mem_cons, List.not_mem_nil, or_false] at hp
    rcases hp with h | h | h
    · subst h
      intro hm
      exact (isDigit_ne ':' (padZeros_all_digit 2 t.hours ':' hm)).1 rfl
    · subst h
      intro hm
      exact (isDigit_ne ':' (padZeros_all_digit 2 t.minutes ':' hm)).1 rfl
    · subst h
      intro hm
      rcases List.mem_append.mp hm with h2 | h2
      · exact (isDigit_ne ':' (padZeros_all_digit 2 t.seconds ':' h2)).1 rfl
      · rcases List.mem_cons.mp h2 with h3 | h3
        · exact absurd h3 (by decide)
        · exact (isDigit_ne ':' (padZeros_all_digit 3 t.milliseconds ':' h3)).1 rfl
  have hsms : splitSep ',' (padZeros 2 (natChars t.seconds) ++ ',' ::
      padZeros 3 (natChars t.milliseconds)) =
      [padZeros 2 (natChars t.seconds), padZeros 3 (natChars t.milliseconds)] := by
    rw [splitSep_append]
    · rw [splitSep_no_sep]
      intro hm
      exact (isDigit_ne ',' (padZeros_all_digit 3 t.milliseconds ',' hm)).2.1 rfl
    · intro hm
      exact (isDigit_ne ',' (padZeros_all_digit 2 t.seconds ',' hm)).2.1 rfl
  simp only [parseTime?, hsplit, hsms, parseNat_padZeros]

/-- Modelled from the spec: the `start --> end` timestamp line (§4.2/§6). -/
def fmtRange (s e : SubRipTime) : Line :=
  fmtTime s ++ ' ' :: '-' :: '-' :: '>' :: ' ' :: fmtTime e

/-- Modelled from the spec: splitting a timestamp line into start and end
around the `-->` arrow; failure here is the `MalformedSubtitle` case "a
timestamp line cannot be split into start/end". -/
def splitArrow? (cs : Line) : Option (Line × Line) :=
  match splitSep ' ' cs with
  | [a, arrow, b] => if arrow = ['-', '-', '>'] then some (a, b) else none
  | _ => none

theorem fmtRange_chars (s e : SubRipTime) :
    ∀ c ∈ fmtRange s e, c ≠ '\n' ∧ c ≠ '\r' := by
  intro c hc
  simp only [fmtRange, List.mem_append, List.mem_cons] at hc
  rcases hc with h | h | h | h | h | h | h
  · exact ⟨(fmtTime_no_colon_free_chars s c h).2.1, (fmtTime_no_colon_free_chars s c h).2.2⟩
  · subst h; exact ⟨by decide, by decide⟩
  · subst h; exact ⟨by decide, by decide⟩
  · subst h; exact ⟨by decide, by decide⟩
  · subst h; exact ⟨by decide, by decide⟩
  · subst h; exact ⟨by decide, by decide⟩
  · exact ⟨(fmtTime_no_colon_free_chars e c h).2.1, (fmtTime_no_colon_free_chars e c h).2.2⟩

theorem fmtRange_ne_nil (s e : SubRipTime) : fmtRange s e ≠ [] := by
  simp only [fmtRange]
  intro h
  rcases List.append_eq_nil.mp h with ⟨h1, _⟩
  exact fmtTime_ne_nil s h1

theorem splitArrow_fmtRange (s e : SubRipTime) :
    splitArrow? (fmtRange s e) = some (fmtTime s, fmtTime e) := by
  have hjoin : fmtRange s e = joinSep ' ' [fmtTime s, ['-', '-', '>'], fmtTime e] := by
    simp [fmtRange, joinSep]
  have hsplit : splitSep ' ' (fmtRange s e) = [fmtTime s, ['-', '-', '>'], fmtTime e] := by
    rw [hjoin]
    apply splitSep_joinSep _ (by simp)
    intro p hp
    simp only [List.mem_cons, List.not_mem_nil, or_false] at hp
    rcases hp with h | h | h
    · subst h
      intro hm
      exact (fmtTime_no_colon_free_chars s ' ' hm).1 rfl
    · subst h
      decide
    · subst h
      intro hm
      exact (fmtTime_no_colon_free_chars e ' ' hm).1 rfl
  simp [splitArrow?, hsplit]

/-! ## Subtitle codec

Modelled from the spec (§4.2): the source delegates parsing to
`pysrt.from_string` (src/main.py:133) and serialization to
`SubRipFile.save` (src/main.py:65); `pysrt` itself is an external
dependency absent from `src/`.  Blocks are separated by blank lines; a
block is an index line, a `start --> end` line and the remaining text
lines; parsing is lenient about CRLF line endings (trailing carriage
returns are stripped) and trailing blank lines; serialization renumbers
cues `1..N` and joins blocks with a single blank line. -/

def stripCR (l : Line) : Line :=
  (l.reverse.dropWhile (fun c => c == '\r')).reverse

def parseLines (raw : String) : List Line :=
  (splitSep '\n' raw.data).map stripCR

def groupBlocks (ls : List Line) : List (List Line) :=
  (splitSep ([] : Line) ls).filter (fun b => !b.isEmpty)

def parseBlock : List Line → Except ParseError SubRipItem
  | [] => .error .badIndex
  | idxLine :: rest =>
    match parseNat? idxLine with
    | none => .error .badIndex
    | some n =>
      if n = 0 then .error .badIndex
      else
        match rest with
        | [] => .error .missingTimestamp
        | tsLine :: textLines =>
          match splitArrow? tsLine with
          | none => .error .badTimestamp
          | some (a, b) =>
            match parseTime? a, parseTime? b with
            | some s, some e => .ok ⟨n, s, e, String.mk (joinSep '\n' textLines)⟩
            | _, _ => .error .badTimestamp

def parseBlocks : List (List Line) → Except ParseError (List SubRipItem)
  | [] => .ok []
  | b :: bs =>
    match parseBlock b with
    | .error e => .error e
    | .ok it =>
      match parseBlocks bs with
      | .error e => .error e
      | .ok its => .ok (it :: its)

/-- Modelled from the spec: `parse(raw) -> CueDocument` (§4.2), standing in
for `pysrt.from_string` (src/main.py:133). -/
def parse (raw : String) : Except ParseError (List SubRipItem) :=
  parseBlocks (groupBlocks (parseLines raw))

def textLinesOf (t : String) : List Line :=
  if t = "" then [] else splitSep '\n' t.data

def itemLines (i : Nat) (it : SubRipItem) : List Line :=
  natChars i :: fmtRange it.start it.«end» :: textLinesOf it.text

def blocksFrom (i : Nat) : List SubRipItem → List (List Line)
  | [] => []
  | it :: rest => itemLines i it :: blocksFrom (i + 1) rest

/-- Modelled from the spec: `serialize(document) -> string` (§4.2),
standing in for `SubRipFile.save` (src/main.py:65): indices renumbered
`1..N`, blocks joined with one blank line. -/
def serialize (doc : List SubRipItem) : String :=
  String.mk (joinSep '\n' (joinSep ([] : Line) (blocksFrom 1 doc)))

def renumberFrom (i : Nat) : List SubRipItem → List SubRipItem
  | [] => []
  | it :: rest => { it with index := i } :: renumberFrom (i + 1) rest

/-- The projection the round-trip law compares: everything but the
(re-derived) index. -/
def cueCore (it : SubRipItem) : SubRipTime × SubRipTime × String :=
  (it.start, it.«end», it.text)

/-! ## Invariants of parse output -/

theorem head?_dropWhile_not {p : Char → Bool} :
    ∀ (l : Line) (a : Char), (l.dropWhile p).head? = some a → p a = false := by
  intro l
  induction l with
  | nil => intro a h; simp [List.dropWhile] at h
  | cons c t ih =>
    intro a h
    by_cases hc : p c
    · rw [List.dropWhile_cons_of_pos hc] at h
      exact ih a h
    · rw [List.dropWhile_cons_of_neg hc] at h
      simp only [List.head?_cons, Option.some.injEq] at h
      subst h
      simpa using hc

theorem stripCR_getLast (l : Line) : (stripCR l).getLast? ≠ some '\r' := by
  intro h
  have h1 : (stripCR l).getLast? =
      (l.reverse.dropWhile (fun c => c == '\r')).head? := by
    rw [stripCR]
    rw [← List.head?_reverse, List.reverse_reverse]
  rw [h1] at h
  have := head?_dropWhile_not _ _ h
  simp at this

theorem stripCR_eq_self {l : Line} (h : l.getLast? ≠ some '\r') :
    stripCR l = l := by
  cases hrev : l.reverse with
  | nil =>
    have : l = [] := by simpa using congrArg List.reverse hrev
    subst this
    rfl
  | cons c t =>
    have hc : c ≠ '\r' := by
      intro he
      apply h
      rw [← List.head?_reverse, hrev, he]
      rfl
    rw [stripCR, hrev, List.dropWhile_cons_of_neg (by simpa using hc),
      ← hrev, List.reverse_reverse]

theorem mem_stripCR {l : Line} {x : Char} (h : x ∈ stripCR l) : x ∈ l := by
  rw [stripCR, List.mem_reverse] at h
  have hsub := List.dropWhile_sublist (l := l.reverse) (fun c => c == '\r')
  exact List.mem_reverse.mp (hsub.subset h)

/-- Lines that survive a parse unchanged under serialization: non-empty,
newline-free, not ending in a carriage return. -/
def GoodLine (l : Line) : Prop :=
  l ≠ [] ∧ '\n' ∉ l ∧ l.getLast? ≠ some '\r'

/-- A cue item whose text decomposes into good lines; all items produced
by `parse` satisfy this. -/
def GoodItem (it : SubRipItem) : Prop :=
  ∀ l ∈ textLinesOf it.text, GoodLine l

theorem getLast?_ne_cr {l : Line} (h : ∀ c ∈ l, c ≠ '\r') :
    l.getLast? ≠ some '\r' := by
  intro hc
  obtain ⟨hne, heq⟩ := List.mem_getLast?_eq_getLast (Option.mem_def.mpr hc)
  exact h _ (heq ▸ List.getLast_mem hne) rfl

theorem string_mk_eq_empty {cs : List Char} (h : String.mk cs = "") : cs = [] :=
  congrArg String.data h

theorem groupBlocks_lines_good (raw : String) :
    ∀ b ∈ groupBlocks (parseLines raw), ∀ l ∈ b, GoodLine l := by
  intro b hb l hl
  have hbs : b ∈ splitSep ([] : Line) (parseLines raw) := List.mem_of_mem_filter hb
  refine ⟨?_, ?_, ?_⟩
  · intro he
    exact not_mem_of_mem_splitSep hbs (he ▸ hl)
  · have hlm : l ∈ parseLines raw := mem_of_mem_splitSep hbs hl
    simp only [parseLines, List.mem_map] at hlm
    obtain ⟨l0, hl0, heq⟩ := hlm
    intro hnl
    exact not_mem_of_mem_splitSep hl0 (mem_stripCR (heq ▸ hnl))
  · have hlm : l ∈ parseLines raw := mem_of_mem_splitSep hbs hl
    simp only [parseLines, List.mem_map] at hlm
    obtain ⟨l0, _, heq⟩ := hlm
    exact heq ▸ stripCR_getLast l0

theorem parseBlock_good {b : List Line} {it : SubRipItem}
    (hb : ∀ l ∈ b, GoodLine l) (h : parseBlock b = .ok it) : GoodItem it := by
  match b with
  | [] => simp [parseBlock] at h
  | idxLine :: rest =>
    simp only [parseBlock] at h
    split at h
    · exact absurd h (by simp)
    · rename_i n hidx
      split at h
      · exact absurd h (by simp)
      · rename_i hn
        split at h
        · exact absurd h (by simp)
        · rename_i tsLine textLines
          split at h
          · exact absurd h (by simp)
          · rename_i a c harrow
            split at h
            · rename_i s e hta htc
              simp only [Except.ok.injEq] at h
              subst h
              intro l hl
              match textLines with
              | [] =>
                simp only [textLinesOf] at hl
                split at hl
                · exact absurd hl (List.not_mem_nil l)
                · rename_i hne
                  exact absurd rfl hne
              | tl :: tls =>
                have hlines : ∀ l2 ∈ tl :: tls, GoodLine l2 := fun l2 hl2 =>
                  hb l2 (List.mem_cons_of_mem idxLine
                    (List.mem_cons_of_mem tsLine hl2))
                have hjoin_ne : joinSep '\n' (tl :: tls) ≠ [] :=
                  joinSep_ne_nil '\n' (tl :: tls) (by simp)
                    (fun p hp => (hlines p hp).1)
                have htext_ne : String.mk (joinSep '\n' (tl :: tls)) ≠ "" :=
                  fun hc => hjoin_ne (string_mk_eq_empty hc)
                simp only [textLinesOf, if_neg htext_ne] at hl
                have hsplit : splitSep '\n'
                    (String.mk (joinSep '\n' (tl :: tls))).data = tl :: tls := by
                  show splitSep '\n' (joinSep '\n' (tl :: tls)) = tl :: tls
                  exact splitSep_joinSep _ (by simp)
                    (fun p hp => (hlines p hp).2.1)
                rw [hsplit] at hl
                exact hlines l hl
            · exact absurd h (by simp)

theorem parseBlocks_good {bs : List (List Line)} {doc : List SubRipItem}
    (hbs : ∀ b ∈ bs, ∀ l ∈ b, GoodLine l)
    (h : parseBlocks bs = .ok doc) : ∀ it ∈ doc, GoodItem it := by
  induction bs generalizing doc with
  | nil =>
    simp only [parseBlocks, Except.ok.injEq] at h
    subst h
    intro it hit
    exact absurd hit (List.not_mem_nil it)
  | cons b bs ih =>
    simp only [parseBlocks] at h
    split at h
    · exact absurd h (by simp)
    · rename_i it0 h1
      split at h
      · exact absurd h (by simp)
      · rename_i its h2
        simp only [Except.ok.injEq] at h
        subst h
        intro it hit
        rcases List.mem_cons.mp hit with h3 | h3
        · subst h3
          exact parseBlock_good (hbs b (List.mem_cons_self b bs)) h1
        · exact ih (fun b2 hb2 => hbs b2 (List.mem_cons_of_mem b hb2)) h2 it h3

theorem parse_good {raw : String} {doc : List SubRipItem}
    (h : parse raw = .ok doc) : ∀ it ∈ doc, GoodItem it :=
  parseBlocks_good (groupBlocks_lines_good raw) h

/-! ## Round-trip: parsing a serialized document -/

theorem itemLines_good {i : Nat} {it : SubRipItem} (hg : GoodItem it) :
    ∀ l ∈ itemLines i it, GoodLine l := by
  intro l hl
  simp only [itemLines, List.mem_cons] at hl
  rcases hl with h | h | h
  · subst h
    refine ⟨natChars_ne_nil i, ?_, ?_⟩
    · intro hm
      exact (isDigit_ne '\n' (natChars_all_digit i '\n' hm)).2.2.2.1 rfl
    · exact getLast?_ne_cr fun c hc he =>
        (isDigit_ne c (natChars_all_digit i c hc)).2.2.2.2.1 (he ▸ rfl)
  · subst h
    refine ⟨fmtRange_ne_nil _ _, ?_, ?_⟩
    · intro hm
      exact (fmtRange_chars it.start it.«end» '\n' hm).1 rfl
    · exact getLast?_ne_cr fun c hc he =>
        (fmtRange_chars it.start it.«end» c hc).2 (he ▸ rfl)
  · exact hg l h

theorem mem_blocksFrom {i : Nat} {doc : List SubRipItem} {b : List Line}
    (h : b ∈ blocksFrom i doc) : ∃ j it, it ∈ doc ∧ b = itemLines j it := by
  induction doc generalizing i with
  | nil => simp [blocksFrom] at h
  | cons it0 rest ih =>
    simp only [blocksFrom, List.mem_cons] at h
    rcases h with h | h
    · exact ⟨i, it0, List.mem_cons_self it0 rest, h⟩
    · obtain ⟨j, it, hit, hb⟩ := ih h
      exact ⟨j, it, List.mem_cons_of_mem it0 hit, hb⟩

theorem parseBlock_itemLines {i : Nat} (it : SubRipItem) (hi : i ≠ 0) :
    parseBlock (itemLines i it) = .ok { it with index := i } := by
  have htext : String.mk (joinSep '\n' (textLinesOf it.text)) = it.text := by
    by_cases he : it.text = ""
    · rw [textLinesOf, if_pos he, he]
      rfl
    · rw [textLinesOf, if_neg he, joinSep_splitSep]
  simp only [parseBlock, itemLines, parseNat_natChars, if_neg hi,
    splitArrow_fmtRange, parseTime_fmtTime, htext]

theorem parseBlocks_blocksFrom (doc : List SubRipItem) :
    ∀ i, i ≠ 0 → (∀ it ∈ doc, GoodItem it) →
      parseBlocks (blocksFrom i doc) = .ok (renumberFrom i doc) := by
  induction doc with
  | nil => intro i _ _; rfl
  | cons it rest ih =>
    intro i hi hg
    have h1 := parseBlock_itemLines (i := i) it hi
    have h2 := ih (i + 1) (Nat.succ_ne_zero i)
      (fun it2 hit2 => hg it2 (List.mem_cons_of_mem it hit2))
    simp only [blocksFrom, parseBlocks, h1, h2, renumberFrom]

theorem serialize_data (doc : List SubRipItem) :
    (serialize doc).data = joinSep '\n' (joinSep ([] : Line) (blocksFrom 1 doc)) :=
  rfl

theorem blocksFrom_ne_nil {doc : List SubRipItem} (h : doc ≠ []) :
    ∀ i, blocksFrom i doc ≠ [] := by
  intro i
  cases doc with
  | nil => exact absurd rfl h
  | cons it rest => simp [blocksFrom]

theorem parse_serialize_eq (doc : List SubRipItem)
    (hg : ∀ it ∈ doc, GoodItem it) :
    parse (serialize doc) = .ok (renumberFrom 1 doc) := by
  cases hdoc : doc with
  | nil => rfl
  | cons it0 rest =>
  rw [← hdoc]
  have hdne : doc ≠ [] := by rw [hdoc]; simp
  have hblocks_good : ∀ b ∈ blocksFrom 1 doc, ∀ l ∈ b, GoodLine l := by
    intro b hb l hl
    obtain ⟨j, it, hit, hbj⟩ := mem_blocksFrom hb
    exact itemLines_good (hg it hit) l (hbj ▸ hl)
  have hlines_good : ∀ l ∈ joinSep ([] : Line) (blocksFrom 1 doc),
      l = [] ∨ GoodLine l := by
    intro l hl
    rcases mem_joinSep hl with h | ⟨b, hb, hlb⟩
    · exact Or.inl h
    · exact Or.inr (hblocks_good b hb l hlb)
  have hall_ne : joinSep ([] : Line) (blocksFrom 1 doc) ≠ [] := by
    apply joinSep_ne_nil _ _ (blocksFrom_ne_nil hdne 1)
    intro b hb
    obtain ⟨j, it, _, hbj⟩ := mem_blocksFrom hb
    rw [hbj, itemLines]
    simp
  have hsplit : splitSep '\n' (serialize doc).data =
      joinSep ([] : Line) (blocksFrom 1 doc) := by
    rw [serialize_data]
    apply splitSep_joinSep _ hall_ne
    intro l hl
    rcases hlines_good l hl with h | h
    · subst h; exact List.not_mem_nil '\n'
    · exact h.2.1
  have hstrip : (joinSep ([] : Line) (blocksFrom 1 doc)).map stripCR =
      joinSep ([] : Line) (blocksFrom 1 doc) := by
    conv_rhs => rw [← List.map_id (joinSep ([] : Line) (blocksFrom 1 doc))]
    apply List.map_congr_left
    intro l hl
    rcases hlines_good l hl with h | h
    · subst h; rfl
    · exact stripCR_eq_self h.2.2
  have hgroup : groupBlocks (joinSep ([] : Line) (blocksFrom 1 doc)) =
      blocksFrom 1 doc := by
    rw [groupBlocks]
    have hs : splitSep ([] : Line) (joinSep ([] : Line) (blocksFrom 1 doc)) =
        blocksFrom 1 doc := by
      apply splitSep_joinSep _ (blocksFrom_ne_nil hdne 1)
      intro b hb hmem
      exact (hblocks_good b hb [] hmem).1 rfl
    rw [hs]
    apply List.filter_eq_self.mpr
    intro b hb
    obtain ⟨j, it, _, hbj⟩ := mem_blocksFrom hb
    rw [hbj, itemLines]
    rfl
  show parseBlocks (groupBlocks (parseLines (serialize doc))) =
    .ok (renumberFrom 1 doc)
  rw [parseLines, hsplit, hstrip, hgroup]
  exact parseBlocks_blocksFrom doc 1 one_ne_zero hg

theorem renumberFrom_map_cueCore (doc : List SubRipItem) :
    ∀ i, (renumberFrom i doc).map cueCore = doc.map cueCore := by
  induction doc with
  | nil => intro i; rfl
  | cons it rest ih =>
    intro i
    simp only [renumberFrom, List.map_cons, ih]
    rfl

/-! ## Quota Guard

Modelled from the spec (§4.1, §4.3): no quota code exists anywhere in
`src/`.  `totalChars` sums the code-point counts (`String.length` counts
`Char`s, i.e. code points, not bytes) of every cue text; `classify`
returns `Empty` when `totalChars = 0`, `Exceeded` when `totalChars >
limit`, else `Ok`. -/

def totalChars (doc : List SubRipItem) : Nat :=
  (doc.map (fun it => it.text.length)).sum

inductive Verdict where
  | Empty
  | Ok
  | Exceeded
deriving DecidableEq, Repr

structure QuotaStatus where
  totalChars : Nat
  limit : Nat
  verdict : Verdict
deriving DecidableEq, Repr

/-- Modelled from the spec: `classify(document, limit) -> QuotaStatus`
(§4.3); no implementation exists in `src/`. -/
def classify (doc : List SubRipItem) (limit : Nat) : QuotaStatus :=
  { totalChars := totalChars doc
    limit := limit
    verdict :=
      if totalChars doc = 0 then .Empty
      else if totalChars doc > limit then .Exceeded
      else .Ok }

/-! ## Session state and the translate operation

Direct translation of `translate_srt_clicked` (src/main.py:197-233).
The remote provider (`deepl.Translator(...).translate_text`) is a
capability parameter `remote`: it either returns one translated string
per submitted text or raises one of the failures the source catches
(src/main.py:226-229).  The write-back loop (src/main.py:218-219) indexes
`current_srt_subs[i]` for each result `i`; a result list longer than the
document raises `IndexError` inside the `try`, after the common prefix
has been written — `setTexts` models the writes, `.indexError` the caught
exception. -/

inductive DeepLError where
  | quotaExceeded
  | authentication
  | provider (detail : String)
  | transport
deriving DecidableEq, Repr

inductive TranslateError where
  | missingApiKey
  | noDocument
  | missingTargetLang
  | translationError (e : DeepLError)
  | indexError
deriving DecidableEq, Repr

/-- `sub.text = result` for each position of the shorter list; extra cues
keep their text, matching the loop `for i, r in enumerate(results):
subs[i].text = r.text`. -/
def setTexts : List SubRipItem → List String → List SubRipItem
  | subs, [] => subs
  | [], _ => []
  | s :: ss, r :: rs => { s with text := r } :: setTexts ss rs

/-- Python truthiness of `config.get(...)` / a dropdown value: `None` and
`""` are falsy (`if not api_key`, `if not target_lang_key`). -/
def falsyOptStr (v : Option String) : Bool :=
  (v.getD "").isEmpty

/-- Result of one click of the translate button: the session variables it
rewrites, the error surfaced (if any), and the batch submitted to the
remote provider (`none` when no network submission happened). -/
structure TranslateOutcome where
  current_srt_subs : Option (List SubRipItem)
  save_srt_disabled : Bool
  error : Option TranslateError
  submitted : Option (List String)
deriving DecidableEq, Repr

def translate_srt_clicked (apiKey : Option String)
    (subs : Option (List SubRipItem)) (saveDisabled : Bool)
    (sourceLang targetLang : Option String)
    (remote : Option String → String → List String → Except DeepLError (List String)) :
    TranslateOutcome :=
  if falsyOptStr apiKey then
    ⟨subs, saveDisabled, some .missingApiKey, none⟩
  else
    match subs with
    | none => ⟨none, saveDisabled, some .noDocument, none⟩
    | some doc =>
      if falsyOptStr targetLang then
        ⟨some doc, saveDisabled, some .missingTargetLang, none⟩
      else
        let sourceLangForApi : Option String :=
          if sourceLang ≠ some "AUTO" then sourceLang else none
        let texts := doc.map (fun it => it.text)
        match remote sourceLangForApi (targetLang.getD "") texts with
        | .error e => ⟨some doc, true, some (.translationError e), some texts⟩
        | .ok results =>
          if results.length > doc.length then
            ⟨some (setTexts doc results), true, some .indexError, some texts⟩
          else
            ⟨some (setTexts doc results), false, none, some texts⟩

/-! ## File selection and the save flow

Direct translation of `on_file_selected_callback` (src/main.py:104-146)
and the guard of `save_translated_srt` (src/main.py:151-156).  A
`PickEvent` is one `FilePickerResultEvent`: cancelled, a picked file with
no path (web preview), a file whose read raised, or a file whose content
was read. -/

structure AppState where
  current_srt_subs : Option (List SubRipItem)
  original_srt_filename : Option String
  save_srt_disabled : Bool
deriving DecidableEq, Repr

inductive PickEvent where
  | cancelled
  | noPath (name : String)
  | readError (name msg : String)
  | content (name raw : String)
deriving DecidableEq, Repr

def on_file_selected_callback (_st : AppState) (ev : PickEvent) : AppState :=
  let reset : AppState := { current_srt_subs := none,
                            original_srt_filename := none,
                            save_srt_disabled := true }
  match ev with
  | .cancelled => reset
  | .noPath name => { reset with original_srt_filename := some name }
  | .readError name _ => { reset with original_srt_filename := some name }
  | .content name raw =>
    match parse raw with
    | .ok subs => { reset with original_srt_filename := some name,
                               current_srt_subs := some subs }
    | .error _ => { reset with original_srt_filename := some name }

/-- The guard at the top of `save_translated_srt` (src/main.py:153):
the save is refused exactly when no document is held. -/
def save_translated_srt_refused (subs : Option (List SubRipItem)) : Bool :=
  subs.isNone

/-- Initial value of the save control (src/main.py:57: `disabled=True`). -/
def save_srt_button_initial_disabled : Bool := true

/-! ## Config store

Direct translation of `load_config` (src/main.py:21-28).  The body of the
`try` (open + `json.load`) has four observable outcomes: the file does
not exist; reading raises something other than `json.JSONDecodeError`
(an `OSError` from `open`, or a `UnicodeDecodeError` from decoding the
bytes); `json.load` raises `JSONDecodeError`; or a JSON value is
produced.  Only `JSONDecodeError` is caught. -/

inductive JValue where
  | obj (fields : List (String × JValue))
  | arr (elems : List JValue)
  | str (s : String)
  | num (n : Int)
  | boolean (b : Bool)
  | null

inductive ConfigFileState where
  | absent
  | unreadable (exc : String)
  | invalidJson
  | validJson (v : JValue)

def defaultConfig : JValue := .obj [("deepl_api_key", .str "")]

def load_config : ConfigFileState → Except String JValue
  | .absent => .ok defaultConfig
  | .unreadable exc => .error exc
  | .invalidJson => .ok defaultConfig
  | .validJson v => .ok v

/-! ## Helper lemmas about the write-back loop -/

theorem setTexts_length : ∀ (subs : List SubRipItem) (rs : List String),
    (setTexts subs rs).length = subs.length
  | subs, [] => by cases subs <;> rfl
  | [], _ :: _ => rfl
  | s :: ss, r :: rs => by
    simp only [setTexts, List.length_cons, setTexts_length ss rs]

theorem setTexts_spec : ∀ (subs : List SubRipItem) (rs : List String)
    (i : Nat) (hi : i < subs.length) (hr : i < rs.length)
    (hs : i < (setTexts subs rs).length),
    (setTexts subs rs).get ⟨i, hs⟩ =
      { subs.get ⟨i, hi⟩ with text := rs.get ⟨i, hr⟩ }
  | [], _, i, hi, _, _ => absurd hi (by simp)
  | _ :: _, [], i, _, hr, _ => absurd hr (by simp)
  | s :: ss, r :: rs, 0, _, _, _ => rfl
  | s :: ss, r :: rs, i + 1, hi, hr, hs => by
    simp only [setTexts, List.get] at hs ⊢
    exact setTexts_spec ss rs i (Nat.lt_of_succ_lt_succ hi)
      (Nat.lt_of_succ_lt_succ hr) (by simpa [setTexts_length] using hs)

/-! ## Sample data for witnesses and counterexamples -/

def cueHello : SubRipItem := ⟨1, ⟨0, 0, 1, 0⟩, ⟨0, 0, 2, 500⟩, "Hello"⟩

def cueWorld : SubRipItem := ⟨2, ⟨0, 0, 3, 0⟩, ⟨0, 0, 4, 0⟩, "World"⟩

def cueBlank : SubRipItem := ⟨1, ⟨0, 0, 1, 0⟩, ⟨0, 0, 2, 500⟩, ""⟩

def srtSampleRaw : String := "1\n00:00:01,000 --> 00:00:02,500\nHello\n\n"

/-! ## Claims -/

/-- C1, as stated, is false on the code: `translate_srt_clicked` performs
no quota check, so the remote provider is invoked on a loaded document
whose quota verdict is `Empty` (blank text, any positive limit).  At the
concrete state below the batch is submitted although the verdict is not
`Ok`. -/
theorem c1_quota_gate_counterexample :
    (translate_srt_clicked (some "key") (some [cueBlank]) true (some "AUTO")
        (some "JA") (fun _ _ ts => Except.ok ts)).submitted.isSome = true ∧
    (classify [cueBlank] 500000).verdict ≠ Verdict.Ok :=
  ⟨rfl, by decide⟩

/-- C1 amended: the session applies no quota gate at all; the remote
provider is invoked exactly when the credential, the document and the
target language are present, regardless of the Quota Guard verdict. -/
theorem c1_translate_submits_iff (apiKey : Option String)
    (subs : Option (List SubRipItem)) (saveDisabled : Bool)
    (sourceLang targetLang : Option String)
    (remote : Option String → String → List String → Except DeepLError (List String)) :
    (translate_srt_clicked apiKey subs saveDisabled sourceLang targetLang
        remote).submitted.isSome =
      (!falsyOptStr apiKey && subs.isSome && !falsyOptStr targetLang) := by
  by_cases hk : falsyOptStr apiKey = true
  · simp [translate_srt_clicked, hk]
  · rw [Bool.not_eq_true] at hk
    cases subs with
    | none => simp [translate_srt_clicked, hk]
    | some doc =>
      by_cases ht : falsyOptStr targetLang = true
      · simp [translate_srt_clicked, hk, ht]
      · rw [Bool.not_eq_true] at ht
        simp only [translate_srt_clicked, hk, ht, Bool.false_eq_true, if_false,
          Bool.not_false, Option.isSome_some, Bool.and_true, Bool.true_and]
        split
        · rfl
        · split <;> rfl

/-- C2: on any failure of the remote provider the document is exactly the
document before the call, and its serialized form is identical. -/
theorem c2_translate_failure_preserves_document (apiKey : Option String)
    (doc : List SubRipItem) (saveDisabled : Bool)
    (sourceLang targetLang : Option String)
    (remote : Option String → String → List String → Except DeepLError (List String))
    (e : DeepLError)
    (h : remote (if sourceLang ≠ some "AUTO" then sourceLang else none)
        (targetLang.getD "") (doc.map (fun it => it.text)) = Except.error e) :
    (translate_srt_clicked apiKey (some doc) saveDisabled sourceLang targetLang
        remote).current_srt_subs = some doc ∧
    (translate_srt_clicked apiKey (some doc) saveDisabled sourceLang targetLang
        remote).current_srt_subs.map serialize = some (serialize doc) := by
  have hsubs : (translate_srt_clicked apiKey (some doc) saveDisabled sourceLang
      targetLang remote).current_srt_subs = some doc := by
    simp only [translate_srt_clicked]
    split
    · rfl
    · split
      · rfl
      · rw [h]
  exact ⟨hsubs, by rw [hsubs]; rfl⟩

/-- C2 witness: an authentication failure at a concrete one-cue document
leaves the document and its serialization untouched. -/
theorem c2_translate_failure_witness :
    (translate_srt_clicked (some "key") (some [cueHello]) false (some "AUTO")
        (some "JA")
        (fun _ _ _ => Except.error DeepLError.authentication)).current_srt_subs
      = some [cueHello] ∧
    (translate_srt_clicked (some "key") (some [cueHello]) false (some "AUTO")
        (some "JA")
        (fun _ _ _ => Except.error DeepLError.authentication)).current_srt_subs.map
        serialize = some (serialize [cueHello]) :=
  c2_translate_failure_preserves_document (some "key") [cueHello] false
    (some "AUTO") (some "JA") _ DeepLError.authentication rfl

/-- C3, as stated, is false on the code: with both the credential and the
document absent, the error is `MissingCredential` (the credential check
at src/main.py:199-201 runs first), not `NoDocument`. -/
theorem c3_check_order_counterexample :
    (translate_srt_clicked none none false none none
        (fun _ _ ts => Except.ok ts)).error = some TranslateError.missingApiKey ∧
    (translate_srt_clicked none none false none none
        (fun _ _ ts => Except.ok ts)).error ≠ some TranslateError.noDocument :=
  ⟨rfl, by decide⟩

/-- C3 amended: the checks run in the order credential (else
`MissingCredential`), document (else `NoDocument`), target language (else
`MissingTargetLanguage`); there is no quota-verdict check, and the first
failing check determines the error. -/
theorem c3_precondition_order (apiKey : Option String)
    (subs : Option (List SubRipItem)) (saveDisabled : Bool)
    (sourceLang targetLang : Option String)
    (remote : Option String → String → List String → Except DeepLError (List String)) :
    (translate_srt_clicked apiKey subs saveDisabled sourceLang targetLang
        remote).error =
      if falsyOptStr apiKey then some TranslateError.missingApiKey
      else if subs.isNone then some TranslateError.noDocument
      else if falsyOptStr targetLang then some TranslateError.missingTargetLang
      else
        match remote (if sourceLang ≠ some "AUTO" then sourceLang else none)
            (targetLang.getD "") ((subs.getD []).map (fun it => it.text)) with
        | .error e => some (TranslateError.translationError e)
        | .ok results =>
          if results.length > (subs.getD []).length then
            some TranslateError.indexError
          else none := by
  by_cases hk : falsyOptStr apiKey = true
  · simp [translate_srt_clicked, hk]
  · rw [Bool.not_eq_true] at hk
    cases subs with
    | none => simp [translate_srt_clicked, hk]
    | some doc =>
      by_cases ht : falsyOptStr targetLang = true
      · simp [translate_srt_clicked, hk, ht]
      · rw [Bool.not_eq_true] at ht
        simp only [translate_srt_clicked, hk, ht, Bool.false_eq_true, if_false,
          Option.isNone_some, Option.getD_some]
        split
        · rfl
        · split <;> rfl

/-- C4: when the remote call succeeds with one result per cue, each cue
receives the result at its own position in `text`, and `index`, `start`
and `end` are untouched. -/
theorem c4_translate_success_shape (apiKey : Option String)
    (doc : List SubRipItem) (saveDisabled : Bool)
    (sourceLang targetLang : Option String)
    (remote : Option String → String → List String → Except DeepLError (List String))
    (results : List String)
    (hk : falsyOptStr apiKey = false) (ht : falsyOptStr targetLang = false)
    (hremote : remote (if sourceLang ≠ some "AUTO" then sourceLang else none)
        (targetLang.getD "") (doc.map (fun it => it.text)) = Except.ok results)
    (hlen : results.length = doc.length) :
    ∃ doc2, (translate_srt_clicked apiKey (some doc) saveDisabled sourceLang
        targetLang remote).current_srt_subs = some doc2 ∧
      (translate_srt_clicked apiKey (some doc) saveDisabled sourceLang
        targetLang remote).error = none ∧
      doc2.length = doc.length ∧
      ∀ (i : Nat) (hi : i < doc.length) (hr : i < results.length)
        (h2 : i < doc2.length),
        doc2.get ⟨i, h2⟩ = { doc.get ⟨i, hi⟩ with text := results.get ⟨i, hr⟩ } := by
  refine ⟨setTexts doc results, ?_, ?_, setTexts_length doc results, ?_⟩
  · simp only [translate_srt_clicked, hk, Bool.false_eq_true, if_false, ht,
      hremote]
    rw [if_neg (by omega)]
  · simp only [translate_srt_clicked, hk, Bool.false_eq_true, if_false, ht,
      hremote]
    rw [if_neg (by omega)]
  · intro i hi hr h2
    exact setTexts_spec doc results i hi hr h2

/-- C4 witness (Scenario C): `["Hello","World"]` translated to
`["Bonjour","Monde"]` lands positionally with timing untouched. -/
theorem c4_translate_success_witness :
    ∃ doc2, (translate_srt_clicked (some "key") (some [cueHello, cueWorld])
        false (some "EN") (some "FR")
        (fun _ _ _ => Except.ok ["Bonjour", "Monde"])).current_srt_subs
        = some doc2 ∧
      (translate_srt_clicked (some "key") (some [cueHello, cueWorld])
        false (some "EN") (some "FR")
        (fun _ _ _ => Except.ok ["Bonjour", "Monde"])).error = none ∧
      doc2.length = [cueHello, cueWorld].length ∧
      ∀ (i : Nat) (hi : i < [cueHello, cueWorld].length)
        (hr : i < (["Bonjour", "Monde"] : List String).length)
        (h2 : i < doc2.length),
        doc2.get ⟨i, h2⟩ = { [cueHello, cueWorld].get ⟨i, hi⟩ with
          text := (["Bonjour", "Monde"] : List String).get ⟨i, hr⟩ } :=
  c4_translate_success_shape (some "key") [cueHello, cueWorld] false
    (some "EN") (some "FR") _ ["Bonjour", "Monde"] rfl rfl rfl rfl

/-- C5: round-trip law — reparsing the serialization of any parse result
yields a document equal per position in (start, end, text); only the
index renumbering may differ. -/
theorem c5_parse_serialize_parse_roundtrip (raw : String)
    (doc : List SubRipItem) (h : parse raw = Except.ok doc) :
    ∃ doc2, parse (serialize doc) = Except.ok doc2 ∧
      doc2.map cueCore = doc.map cueCore :=
  ⟨renumberFrom 1 doc, parse_serialize_eq doc (parse_good h),
    renumberFrom_map_cueCore doc 1⟩

/-- C5 witness (Scenario A): the one-cue sample round-trips. -/
theorem c5_roundtrip_witness :
    parse srtSampleRaw = Except.ok [cueHello] ∧
    ∃ doc2, parse (serialize [cueHello]) = Except.ok doc2 ∧
      doc2.map cueCore = [cueHello].map cueCore :=
  ⟨rfl, c5_parse_serialize_parse_roundtrip srtSampleRaw [cueHello] rfl⟩

/-- C6, as stated, is false on the code: a successful load leaves the
save control disabled (src/main.py:111; it is re-enabled only by a
successful translation, src/main.py:225), so serialize is not available
merely because a document is loaded. -/
theorem c6_availability_counterexample :
    (on_file_selected_callback ⟨none, none, true⟩
        (.content "sample.srt" srtSampleRaw)).current_srt_subs.isSome = true ∧
    (on_file_selected_callback ⟨none, none, true⟩
        (.content "sample.srt" srtSampleRaw)).save_srt_disabled = true :=
  ⟨rfl, rfl⟩

/-- C6 amended: the save handler refuses exactly when no document is
held; but the save action is not available merely once a document is
loaded — every file-selection event leaves the save control disabled,
even when it loads a document successfully. -/
theorem c6_save_guard_and_availability :
    (∀ subs : Option (List SubRipItem),
      save_translated_srt_refused subs = true ↔ subs = none) ∧
    (∀ st ev, (on_file_selected_callback st ev).save_srt_disabled = true) := by
  constructor
  · intro subs
    cases subs <;> simp [save_translated_srt_refused]
  · intro st ev
    cases ev with
    | cancelled => rfl
    | noPath name => rfl
    | readError name msg => rfl
    | content name raw =>
      simp only [on_file_selected_callback]
      split <;> rfl

/-- C7: `classify` reports the document's code-point total and classifies
it as `Exceeded` iff the total exceeds the limit and `Empty` iff the
total is zero (for a positive limit). -/
theorem c7_classify_spec (doc : List SubRipItem) (limit : Nat)
    (_hpos : 0 < limit) :
    (classify doc limit).totalChars = totalChars doc ∧
    ((classify doc limit).verdict = Verdict.Exceeded ↔ totalChars doc > limit) ∧
    ((classify doc limit).verdict = Verdict.Empty ↔ totalChars doc = 0) := by
  refine ⟨rfl, ?_, ?_⟩ <;>
  · simp only [classify]
    split_ifs with h0 hgt <;> simp_all

/-- C7 witness at a concrete document and limit. -/
theorem c7_classify_witness :
    0 < 10 ∧
    ((classify [cueHello] 10).totalChars = totalChars [cueHello] ∧
      ((classify [cueHello] 10).verdict = Verdict.Exceeded ↔
        totalChars [cueHello] > 10) ∧
      ((classify [cueHello] 10).verdict = Verdict.Empty ↔
        totalChars [cueHello] = 0)) :=
  ⟨by decide, c7_classify_spec [cueHello] 10 (by decide)⟩

/-- C8: every file-selection event resets the session before parsing —
the save control ends disabled and the held document is exactly the parse
result of the picked content (and `none` for a cancelled pick, a missing
path, a read error or a parse error), independent of the previous
state. -/
theorem c8_load_resets_state (st : AppState) (ev : PickEvent) :
    (on_file_selected_callback st ev).save_srt_disabled = true ∧
    (on_file_selected_callback st ev).current_srt_subs =
      (match ev with
       | .content _ raw => (parse raw).toOption
       | _ => none) := by
  constructor
  · cases ev with
    | cancelled => rfl
    | noPath name => rfl
    | readError name msg => rfl
    | content name raw =>
      simp only [on_file_selected_callback]
      split <;> rfl
  · cases ev with
    | cancelled => rfl
    | noPath name => rfl
    | readError name msg => rfl
    | content name raw =>
      simp only [on_file_selected_callback]
      cases hp : parse raw <;> simp [hp, Except.toOption]

/-- C9: a loaded document with zero cues (or with all-blank cue text)
passes every precondition check and is submitted to the remote provider
as an empty (resp. all-empty) batch; no `EmptyDocument` refusal exists
before the remote call. -/
theorem c9_empty_document_translates (apiKey : Option String)
    (saveDisabled : Bool) (sourceLang targetLang : Option String)
    (remote : Option String → String → List String → Except DeepLError (List String))
    (hk : falsyOptStr apiKey = false) (ht : falsyOptStr targetLang = false) :
    (translate_srt_clicked apiKey (some []) saveDisabled sourceLang targetLang
        remote).submitted = some [] ∧
    (translate_srt_clicked apiKey (some [cueBlank]) saveDisabled sourceLang
        targetLang remote).submitted = some [""] := by
  constructor <;>
  · simp only [translate_srt_clicked, hk, Bool.false_eq_true, if_false, ht]
    split
    · rfl
    · split <;> rfl

/-- C9 witness at a concrete credential, target language and provider. -/
theorem c9_empty_document_witness :
    falsyOptStr (some "key") = false ∧ falsyOptStr (some "JA") = false ∧
    ((translate_srt_clicked (some "key") (some []) false (some "AUTO")
        (some "JA") (fun _ _ ts => Except.ok ts)).submitted = some [] ∧
      (translate_srt_clicked (some "key") (some [cueBlank]) false (some "AUTO")
        (some "JA") (fun _ _ ts => Except.ok ts)).submitted = some [""]) :=
  ⟨rfl, rfl, c9_empty_document_translates (some "key") false (some "AUTO")
    (some "JA") _ rfl rfl⟩

/-- C10, as stated, is false on the code: `load_config` catches only
`json.JSONDecodeError`, so a config file whose read itself raises (for
example bytes that are not valid UTF-8, raising `UnicodeDecodeError`)
propagates the exception instead of returning the default mapping. -/
theorem c10_load_config_counterexample :
    load_config (ConfigFileState.unreadable "UnicodeDecodeError")
      = Except.error "UnicodeDecodeError" :=
  rfl

/-- C10 amended: `load_config` returns the default mapping when the file
is absent or its contents fail JSON decoding; a file whose open/read
raises anything else propagates that exception, and a well-formed JSON
file of any type (not only an object) is returned as-is. -/
theorem c10_load_config_behavior :
    load_config ConfigFileState.absent = Except.ok defaultConfig ∧
    load_config ConfigFileState.invalidJson = Except.ok defaultConfig ∧
    (∀ exc, load_config (ConfigFileState.unreadable exc) = Except.error exc) ∧
    (∀ v, load_config (ConfigFileState.validJson v) = Except.ok v) :=
  ⟨rfl, rfl, fun _ => rfl, fun _ => rfl⟩

end SrtTranslator
